import Mathlib

/-!
Verification of the health-check fetch-and-aggregate pipeline
(`main.go` of the cloud-ops-interview repository) against its
natural-language specification.

The Go program is shallowly embedded: Go `int64` values are modelled as
`Int` reduced into the signed 64-bit range by `toInt64` at every
arithmetic step (Go defines signed overflow as two's-complement
wraparound); Go maps become function-valued finite maps; the HTTP
transport and JSON decoder, excluded from the core by the spec, are
abstract parameters; the goroutine/semaphore discipline of the
dispatcher becomes an explicit labelled transition system.
-/

/-! ## Machine integers: Go int64 as wrapped Int -/

/-- Reduction of an unbounded integer into the signed 64-bit range,
modelling Go's two's-complement `int64` representation
(9223372036854775808 = 2^63, 18446744073709551616 = 2^64). -/
def toInt64 (n : Int) : Int :=
  (n + 9223372036854775808) % 18446744073709551616 - 9223372036854775808

/-- Go `int64` addition (`+` / `+=` on int64 wraps on overflow). -/
def i64add (a b : Int) : Int := toInt64 (a + b)

/-! ## Data model (main.go lines 15-29) -/

/-- Embeds `HealthResponse` (main.go lines 15-22): the decoded JSON body
of a `/healthz` endpoint. All numeric fields are Go `int64`. -/
structure HealthResponse where
  Application : String
  Version : String
  Uptime : Int
  RequestCount : Int
  ErrorCount : Int
  SuccessCount : Int
deriving DecidableEq, Repr

/-- Embeds `AggregatedData` (main.go lines 24-29). -/
structure AggregatedData where
  Application : String
  Version : String
  TotalRequests : Int
  TotalSuccesses : Int
deriving DecidableEq, Repr

/-- The Go zero value of `AggregatedData`, produced by reading a missing
key from a `map[string]AggregatedData`. -/
def zeroAgg : AggregatedData := ⟨"", "", 0, 0⟩

/-! ## Host-address normalization (main.go lines 68-72) -/

/-- Embeds the scheme test of main.go line 68:
`strings.HasPrefix(server, "http://") || strings.HasPrefix(server, "https://")`.
Go's byte-level HasPrefix coincides with character-list `isPrefixOf` here
because both patterns are ASCII strings. -/
def schemePresent (server : String) : Bool :=
  "http://".data.isPrefixOf server.data || "https://".data.isPrefixOf server.data

/-- Embeds main.go lines 68-70: prepend `https://` when no scheme is
present. -/
def addScheme (server : String) : String :=
  if schemePresent server then server else "https://" ++ server

/-- Embeds main.go lines 68-72: the full per-task normalization — scheme
prepended when absent, then the fixed status path appended. -/
def normalizeHost (server : String) : String :=
  addScheme server ++ "/healthz"

/-! ## StatusFetcher (main.go lines 32-53) -/

/-- Abstract result of the one HTTP round trip performed by
`fetchHealthData` (the transport is an external collaborator in the
spec): either a response with a status code and body, or a transport
error message. -/
inductive TransportResult where
  | ok (status : Nat) (body : String)
  | err (msg : String)
deriving DecidableEq, Repr

/-- Embeds `fetchHealthData` (main.go lines 32-53) over an abstract
transport result and an abstract JSON decoder (`decodeJSON body = none`
models a `json.Decoder.Decode` failure; the decode branch's Go message
also interpolates the decoder's own error text, which the abstract
decoder does not carry). The error strings follow the `fmt.Errorf`
format strings of lines 38, 44 and 49. -/
def fetchHealthData (serverURL : String) (transport : TransportResult)
    (decodeJSON : String → Option HealthResponse) : Except String HealthResponse :=
  match transport with
  | .err msg =>
      .error ("failed to reach server " ++ (serverURL ++ (": " ++ msg)))
  | .ok status body =>
      if status ≠ 200 then
        .error ("server " ++ (serverURL ++ (" returned status " ++ toString status ++ ": " ++ body)))
      else
        match decodeJSON body with
        | none =>
            .error ("failed to decode JSON from server " ++ (serverURL ++ (". Response: " ++ body)))
        | some health => .ok health

/-- True exactly on the non-error branch of a fetch result. -/
def isOkE (r : Except String HealthResponse) : Bool :=
  match r with
  | .ok _ => true
  | .error _ => false

/-- The proposition that `fetchHealthData` is in a failure mode:
transport error, non-200 status, or undecodable body. -/
def fetchFails (transport : TransportResult)
    (decodeJSON : String → Option HealthResponse) : Prop :=
  match transport with
  | .err _ => True
  | .ok status body => status ≠ 200 ∨ decodeJSON body = none

instance (t : TransportResult) (d : String → Option HealthResponse) :
    Decidable (fetchFails t d) := by
  unfold fetchFails
  cases t with
  | err msg => exact inferInstanceAs (Decidable True)
  | ok status body => exact inferInstanceAs (Decidable (_ ∨ _))

/-! ## Dispatcher emissions (main.go lines 55-95)

Each goroutine of `fetchHealthDataWithDelayAndConcurrency` normalizes
its host, fetches, and on success sends exactly one `AggregatedData`
into `dataChannel`; on error it prints the error and returns without
sending (lines 78-89). The multiset of emitted values is captured here
as a list in launch order; the fetch outcome per URL is an abstract
oracle since the network is external. -/

/-- The record built on main.go lines 84-89 from a successful fetch. -/
def mkAggregated (h : HealthResponse) : AggregatedData :=
  ⟨h.Application, h.Version, h.RequestCount, h.SuccessCount⟩

/-- The values sent into `dataChannel` by the dispatcher
(main.go lines 63-91), one per host whose fetch succeeds, none for a
host whose fetch fails. -/
def dispatchEmissions (servers : List String)
    (fetchOracle : String → Except String HealthResponse) : List AggregatedData :=
  servers.filterMap (fun server =>
    match fetchOracle (normalizeHost server) with
    | .ok health => some (mkAggregated health)
    | .error _ => none)

/-! ## Aggregator (main.go lines 112-126) -/

/-- The inner Go map `map[string]AggregatedData`, keyed by version. -/
def InnerMap : Type := String → Option AggregatedData

/-- The outer Go map `map[string]map[string]AggregatedData`, keyed by
application. -/
def Aggregation : Type := String → Option InnerMap

/-- One iteration of the loop body of `aggregateData`
(main.go lines 114-124): create the inner map when the application key
is absent, read the current totals (the Go zero value when the version
key is absent), set the key fields and add the counts with int64
addition, and store the updated record. -/
def aggStep (aggregation : Aggregation) (d : AggregatedData) : Aggregation :=
  let inner : InnerMap := (aggregation d.Application).getD (fun _ => none)
  let agg0 : AggregatedData := (inner d.Version).getD zeroAgg
  let agg : AggregatedData :=
    ⟨d.Application, d.Version,
      i64add agg0.TotalRequests d.TotalRequests,
      i64add agg0.TotalSuccesses d.TotalSuccesses⟩
  fun a =>
    if a = d.Application then
      some (fun v => if v = d.Version then some agg else inner v)
    else aggregation a

/-- Embeds `aggregateData` (main.go lines 112-126): fold the loop body
over the collected data, starting from the empty map. -/
def aggregateData (data : List AggregatedData) : Aggregation :=
  data.foldl aggStep (fun _ => none)

/-- Two-level lookup `aggregation[app][version]`, `none` when either
level is missing. -/
def lookup2 (m : Aggregation) (a v : String) : Option AggregatedData :=
  match m a with
  | none => none
  | some inner => inner v

/-- Boolean test that a record carries the aggregation key `(a, v)`. -/
def keyMatches (a v : String) (d : AggregatedData) : Bool :=
  d.Application == a && d.Version == v

/-- Sum of one field over the records of a list that carry the key
`(a, v)`. -/
def matchSum (f : AggregatedData → Int) (data : List AggregatedData) (a v : String) : Int :=
  ((data.filter (keyMatches a v)).map f).sum

/-- Modelled from the spec (§8, testable property on merging): "summing
the two resulting mappings per key". Per-key sum of two aggregation
totals, in int64 arithmetic. -/
def mergeTotals (x y : AggregatedData) : AggregatedData :=
  ⟨x.Application, x.Version,
    i64add x.TotalRequests y.TotalRequests,
    i64add x.TotalSuccesses y.TotalSuccesses⟩

/-- Modelled from the spec (§8): merge of two optional per-key totals —
a key present on one side only keeps its totals, a key present on both
gets the per-key sum. -/
def mergeEntry (x y : Option AggregatedData) : Option AggregatedData :=
  match x, y with
  | none, none => none
  | some r, none => some r
  | none, some r => some r
  | some r₁, some r₂ => some (mergeTotals r₁ r₂)

/-- Modelled from the spec (§8): the per-key merge of two aggregation
mappings. -/
def mergeAgg (m₁ m₂ : Aggregation) : Aggregation := fun a =>
  match m₁ a, m₂ a with
  | none, none => none
  | some inner, none => some inner
  | none, some inner => some inner
  | some inner₁, some inner₂ =>
      some (fun v => mergeEntry (inner₁ v) (inner₂ v))

/-! ## Concurrency discipline (main.go lines 60-76)

The semaphore `sem := make(chan struct{}, config.MaxConcurrency)` admits
a goroutine (line 74) only while fewer than `MaxConcurrency` permits are
outstanding; the permit is held through the pacing sleep (line 76) and
the `fetchHealthData` call (line 78) and released by the deferred
receive (line 75). Modelled as a transition system over the phases of
the per-host goroutines. -/

/-- Phase of one dispatcher goroutine: not yet admitted by the
semaphore; admitted and sleeping the pacing delay; inside
`fetchHealthData`; finished (permit released). -/
inductive TaskPhase where
  | pending
  | delaying
  | fetching
  | done
deriving DecidableEq, Repr

/-- A goroutine holds a semaphore permit from the send on `sem`
(line 74) until the deferred receive (line 75) runs, i.e. through the
delay and the fetch. -/
def holdsPermit (p : TaskPhase) : Bool :=
  match p with
  | .delaying => true
  | .fetching => true
  | _ => false

/-- Number of outstanding semaphore permits in a batch state. -/
def holders (s : List TaskPhase) : Nat := s.countP holdsPermit

/-- Number of goroutines currently inside `fetchHealthData`. -/
def fetchingCount (s : List TaskPhase) : Nat :=
  s.countP (fun p => decide (p = TaskPhase.fetching))

/-- Interleaving semantics of the dispatcher's goroutines under a
semaphore of capacity `C`: a pending task is admitted only while fewer
than `C` permits are outstanding (the buffered-channel send of line 74
blocks otherwise); a delaying task may begin its fetch; a fetching task
may finish, releasing its permit. -/
inductive DispatchStep (C : Nat) : List TaskPhase → List TaskPhase → Prop where
  | acquire (s : List TaskPhase) (i : Nat) (hi : s.get? i = some .pending)
      (hc : holders s < C) : DispatchStep C s (s.set i .delaying)
  | startFetch (s : List TaskPhase) (i : Nat) (hi : s.get? i = some .delaying) :
      DispatchStep C s (s.set i .fetching)
  | finish (s : List TaskPhase) (i : Nat) (hi : s.get? i = some .fetching) :
      DispatchStep C s (s.set i .done)

/-- States of a batch over `n` hosts reachable from the launch state in
which every goroutine is pending. -/
def DispatchReachable (C n : Nat) (s : List TaskPhase) : Prop :=
  Relation.ReflTransGen (DispatchStep C) (List.replicate n .pending) s

/-! ## Arithmetic lemmas for the wrapped int64 model -/

theorem toInt64_add_left (a b : Int) : toInt64 (toInt64 a + b) = toInt64 (a + b) := by
  unfold toInt64
  omega

theorem toInt64_add_right (a b : Int) : toInt64 (a + toInt64 b) = toInt64 (a + b) := by
  unfold toInt64
  omega

theorem toInt64_range (a : Int) :
    -9223372036854775808 ≤ toInt64 a ∧ toInt64 a < 9223372036854775808 := by
  unfold toInt64
  omega

/-! ## Lemmas about the aggregation loop -/

theorem lookup2_aggStep_self (m : Aggregation) (d : AggregatedData) :
    lookup2 (aggStep m d) d.Application d.Version =
      some ⟨d.Application, d.Version,
        i64add ((lookup2 m d.Application d.Version).getD zeroAgg).TotalRequests d.TotalRequests,
        i64add ((lookup2 m d.Application d.Version).getD zeroAgg).TotalSuccesses d.TotalSuccesses⟩ := by
  unfold lookup2 aggStep
  cases h : m d.Application with
  | none => simp [h]
  | some inner => simp [h]

theorem lookup2_aggStep_ne (m : Aggregation) (d : AggregatedData) (a v : String)
    (h : ¬(d.Application = a ∧ d.Version = v)) :
    lookup2 (aggStep m d) a v = lookup2 m a v := by
  unfold lookup2 aggStep
  by_cases ha : a = d.Application
  · have hv : ¬(v = d.Version) := fun hv => h ⟨ha.symm, hv.symm⟩
    subst ha
    cases hm : m d.Application with
    | none => simp [hm, hv]
    | some inner => simp [hm, hv]
  · simp [ha]

theorem keyMatches_iff (a v : String) (d : AggregatedData) :
    keyMatches a v d = true ↔ d.Application = a ∧ d.Version = v := by
  simp [keyMatches]

theorem lookup2_foldl (data : List AggregatedData) (m : Aggregation) (a v : String) :
    lookup2 (data.foldl aggStep m) a v =
      if data.any (keyMatches a v) then
        some ⟨a, v,
          toInt64 (((lookup2 m a v).getD zeroAgg).TotalRequests
            + matchSum AggregatedData.TotalRequests data a v),
          toInt64 (((lookup2 m a v).getD zeroAgg).TotalSuccesses
            + matchSum AggregatedData.TotalSuccesses data a v)⟩
      else lookup2 m a v := by
  induction data generalizing m with
  | nil => simp [matchSum]
  | cons d rest ih =>
    rw [List.foldl_cons, ih]
    by_cases hd : keyMatches a v d = true
    · obtain ⟨ha, hv⟩ := (keyMatches_iff a v d).mp hd
      subst ha
      subst hv
      rw [lookup2_aggStep_self]
      by_cases hrest : rest.any (keyMatches d.Application d.Version) = true
      · simp only [hrest, if_true, List.any_cons, hd, Bool.true_or, Option.getD_some,
          matchSum, List.filter_cons_of_pos hd, List.map_cons, List.sum_cons]
        simp only [i64add, toInt64_add_left]
        ring_nf
      · have hrf : rest.any (keyMatches d.Application d.Version) = false := by
          cases hb : rest.any (keyMatches d.Application d.Version) with
          | false => rfl
          | true => exact absurd hb hrest
        have hnil : rest.filter (keyMatches d.Application d.Version) = [] :=
          List.filter_eq_nil_iff.mpr (fun x hx hpx => (List.any_eq_false.mp hrf x hx) hpx)
        simp [hrf, List.any_cons, hd, matchSum, List.filter_cons_of_pos hd, hnil, i64add]
    · have hprop : ¬(d.Application = a ∧ d.Version = v) := by
        intro hc
        exact hd ((keyMatches_iff a v d).mpr hc)
      rw [lookup2_aggStep_ne m d a v hprop]
      have hdf : keyMatches a v d = false := by
        cases hb : keyMatches a v d with
        | false => rfl
        | true => exact absurd hb hd
      simp only [List.any_cons, hdf, Bool.false_or, matchSum, List.filter_cons_of_neg, hd,
        not_false_iff]
      rw [List.filter_cons_of_neg]
      exact hd

theorem lookup2_aggregateData (data : List AggregatedData) (a v : String) :
    lookup2 (aggregateData data) a v =
      if data.any (keyMatches a v) then
        some ⟨a, v, toInt64 (matchSum AggregatedData.TotalRequests data a v),
                    toInt64 (matchSum AggregatedData.TotalSuccesses data a v)⟩
      else none := by
  have h := lookup2_foldl data (fun _ => none) a v
  simpa [aggregateData, lookup2, zeroAgg] using h


theorem aggStep_inner_nonempty (m : Aggregation)
    (hm : ∀ a inner, m a = some inner → ∃ v, (inner v).isSome = true)
    (d : AggregatedData) :
    ∀ a inner, aggStep m d a = some inner → ∃ v, (inner v).isSome = true := by
  intro a inner h
  unfold aggStep at h
  by_cases ha : a = d.Application
  · simp only [ha, if_true, Option.some.injEq] at h
    subst h
    exact ⟨d.Version, by simp⟩
  · simp only [ha, if_false] at h
    exact hm a inner h

theorem foldl_inner_nonempty (data : List AggregatedData) (m : Aggregation)
    (hm : ∀ a inner, m a = some inner → ∃ v, (inner v).isSome = true) :
    ∀ a inner, (data.foldl aggStep m) a = some inner → ∃ v, (inner v).isSome = true := by
  induction data generalizing m with
  | nil => exact hm
  | cons d rest ih => exact ih _ (aggStep_inner_nonempty m hm d)

/-! ## Lemmas about host normalization -/

theorem isPrefixOf_append_self (p t : List Char) : p.isPrefixOf (p ++ t) = true := by
  induction p with
  | nil => simp [List.isPrefixOf]
  | cons c cs ih => simp [List.isPrefixOf, ih]

theorem schemePresent_addScheme (s : String) : schemePresent (addScheme s) = true := by
  rw [addScheme]
  by_cases h : schemePresent s = true
  · rw [if_pos h]
    exact h
  · rw [if_neg h]
    unfold schemePresent
    rw [String.data_append, isPrefixOf_append_self]
    simp

theorem addScheme_idem (s : String) : addScheme (addScheme s) = addScheme s :=
  calc addScheme (addScheme s)
      = if schemePresent (addScheme s) then addScheme s else "https://" ++ addScheme s := rfl
    _ = addScheme s := if_pos (schemePresent_addScheme s)

/-! ## Lemmas about the concurrency transition system -/

theorem holders_step_le (C : Nat) (s t : List TaskPhase) (hstep : DispatchStep C s t)
    (hs : holders s ≤ C) : holders t ≤ C := by
  cases hstep with
  | acquire i hi hc =>
    rw [List.get?_eq_getElem?] at hi
    obtain ⟨hlen, hget⟩ := List.getElem?_eq_some.mp hi
    have hcount := List.countP_set holdsPermit s i TaskPhase.delaying hlen
    rw [hget] at hcount
    simp [holdsPermit] at hcount
    unfold holders at *
    omega
  | startFetch i hi =>
    rw [List.get?_eq_getElem?] at hi
    obtain ⟨hlen, hget⟩ := List.getElem?_eq_some.mp hi
    have hmem : TaskPhase.delaying ∈ s := by rw [← hget]; exact List.getElem_mem hlen
    have hpos : 0 < s.countP holdsPermit :=
      List.countP_pos_iff.mpr ⟨TaskPhase.delaying, hmem, by simp [holdsPermit]⟩
    have hcount := List.countP_set holdsPermit s i TaskPhase.fetching hlen
    rw [hget] at hcount
    simp [holdsPermit] at hcount
    unfold holders at *
    omega
  | finish i hi =>
    rw [List.get?_eq_getElem?] at hi
    obtain ⟨hlen, hget⟩ := List.getElem?_eq_some.mp hi
    have hcount := List.countP_set holdsPermit s i TaskPhase.done hlen
    rw [hget] at hcount
    simp [holdsPermit] at hcount
    unfold holders at *
    omega

theorem holders_le_of_reachable (C n : Nat) (s : List TaskPhase)
    (h : DispatchReachable C n s) : holders s ≤ C := by
  induction h with
  | refl =>
    have hz : holders (List.replicate n TaskPhase.pending) = 0 := by
      unfold holders
      induction n with
      | zero => rfl
      | succ k ihk => simp [List.replicate_succ, List.countP_cons, holdsPermit, ihk]
    omega
  | tail hsteps hstep ih => exact holders_step_le _ _ _ hstep ih

theorem fetchingCount_le_holders (s : List TaskPhase) : fetchingCount s ≤ holders s := by
  unfold fetchingCount holders
  apply List.countP_mono_left
  intro x _ hx
  have hx2 : x = TaskPhase.fetching := of_decide_eq_true hx
  simp [hx2, holdsPermit]

/-! ## Claim theorems -/

/-- C3 counterexample: applying the normalization step twice to the bare
host "server-0001" appends the status path a second time, so full
normalization is not idempotent. -/
theorem normalize_idem_cex :
    ¬ normalizeHost (normalizeHost "server-0001") = normalizeHost "server-0001" := by
  decide

/-- C3 (amended): a single application of normalization leaves an
existing scheme unchanged and appends the status path exactly once, and
prepends the default scheme to a bare host; the scheme-prepending stage
alone is idempotent, but the full step is not, because the status path
is appended on every application. -/
theorem normalize_single_application (s : String) :
    addScheme (addScheme s) = addScheme s
    ∧ (schemePresent s = true → normalizeHost s = s ++ "/healthz")
    ∧ (schemePresent s = false → normalizeHost s = ("https://" ++ s) ++ "/healthz") := by
  refine ⟨addScheme_idem s, ?_, ?_⟩
  · intro h
    unfold normalizeHost addScheme
    rw [if_pos h]
  · intro h
    unfold normalizeHost addScheme
    rw [if_neg (by simp [h])]

/-- Witness for the amended C3 theorem at a bare host and at a
scheme-bearing host. -/
theorem normalize_single_application_witness :
    normalizeHost "server-0001" = ("https://" ++ "server-0001") ++ "/healthz"
    ∧ normalizeHost "http://server-0001" = "http://server-0001" ++ "/healthz" :=
  ⟨(normalize_single_application "server-0001").2.2 (by decide),
   (normalize_single_application "http://server-0001").2.1 (by decide)⟩

/-- C6: `fetchHealthData` returns a failure exactly when the transport
fails, the status is not 200, or the body does not decode; every failure
message carries the host URL; on success the decoded record is returned
verbatim, with no derived fields. (The embedding is a total function:
no unrecoverable fault can reach the caller.) -/
theorem fetchHealthData_outcomes (serverURL : String) (t : TransportResult)
    (decodeJSON : String → Option HealthResponse) :
    (isOkE (fetchHealthData serverURL t decodeJSON) = false ↔ fetchFails t decodeJSON)
    ∧ (∀ e, fetchHealthData serverURL t decodeJSON = .error e →
        ∃ p q, e = p ++ (serverURL ++ q))
    ∧ (∀ status body h, t = .ok status body → status = 200 → decodeJSON body = some h →
        fetchHealthData serverURL t decodeJSON = .ok h) := by
  refine ⟨?_, ?_, ?_⟩
  · cases t with
    | err msg => simp [fetchHealthData, isOkE, fetchFails]
    | ok status body =>
      by_cases hs : status = 200
      · subst hs
        cases hd : decodeJSON body with
        | none => simp [fetchHealthData, isOkE, fetchFails, hd]
        | some h => simp [fetchHealthData, isOkE, fetchFails, hd]
      · simp [fetchHealthData, isOkE, fetchFails, hs]
  · intro e he
    cases t with
    | err msg =>
      simp only [fetchHealthData, Except.error.injEq] at he
      exact ⟨"failed to reach server ", ": " ++ msg, he.symm⟩
    | ok status body =>
      by_cases hs : status = 200
      · subst hs
        cases hd : decodeJSON body with
        | none =>
          simp only [fetchHealthData, hd, if_neg, ne_eq, not_true_eq_false, if_false,
            reduceIte, Except.error.injEq] at he
          exact ⟨"failed to decode JSON from server ", ". Response: " ++ body, he.symm⟩
        | some h => simp [fetchHealthData, hd] at he
      · simp only [fetchHealthData, ne_eq, hs, not_false_eq_true, if_true, reduceIte,
          Except.error.injEq] at he
        exact ⟨"server ", " returned status " ++ toString status ++ ": " ++ body, he.symm⟩
  · intro status body h ht hs hd
    subst ht
    subst hs
    simp [fetchHealthData, hd]

/-- Witness for the C6 theorem: a transport error, a 500 status and an
undecodable body each yield a failure, and a decodable 200 response
yields the decoded record verbatim. -/
theorem fetchHealthData_outcomes_witness :
    fetchHealthData "https://server-0001/healthz" (.ok 200 "body")
      (fun _ => some ⟨"Memcache2", "1.0.1", 4637719417, 5194800029, 1042813251, 4151986778⟩)
      = .ok ⟨"Memcache2", "1.0.1", 4637719417, 5194800029, 1042813251, 4151986778⟩ :=
  (fetchHealthData_outcomes "https://server-0001/healthz" (.ok 200 "body")
    (fun _ => some ⟨"Memcache2", "1.0.1", 4637719417, 5194800029, 1042813251, 4151986778⟩)).2.2
    200 "body" ⟨"Memcache2", "1.0.1", 4637719417, 5194800029, 1042813251, 4151986778⟩
    rfl rfl rfl

/-- C1 counterexample: with one host whose fetch fails, the dispatcher
emits zero outcomes although the input list has one host, so the number
of emitted items does not equal the length of the input list. -/
theorem dispatch_one_per_host_cex :
    ¬ (dispatchEmissions ["server-0001.cloud-ops-interview.sgdev.org"]
        (fun _ => Except.error "connection refused")).length
      = (["server-0001.cloud-ops-interview.sgdev.org"] : List String).length := by
  decide

/-- C1 (amended): the dispatcher emits exactly one outcome per host
whose fetch succeeds and none for a host whose fetch fails, so the
number of items emitted equals the number of hosts whose fetch
succeeds — the length of the input list exactly when every fetch
succeeds. -/
theorem dispatch_emission_count (servers : List String)
    (fetchOracle : String → Except String HealthResponse) :
    (dispatchEmissions servers fetchOracle).length
      = servers.countP (fun s => isOkE (fetchOracle (normalizeHost s))) := by
  induction servers with
  | nil => rfl
  | cons s rest ih =>
    unfold dispatchEmissions at *
    rw [List.filterMap_cons, List.countP_cons]
    cases h : fetchOracle (normalizeHost s) with
    | ok health => simp [isOkE, h, ih]
    | error e => simp [isOkE, h, ih]

/-- C9: the sequence of items sent to the results channel is exactly one
`AggregatedData` record per host whose fetch succeeds, built from the
fetched response, with no representation of failed hosts. -/
theorem dispatch_emissions_success_only (servers : List String)
    (fetchOracle : String → Except String HealthResponse) :
    dispatchEmissions servers fetchOracle
      = (servers.filter (fun s => isOkE (fetchOracle (normalizeHost s)))).map
          (fun s => mkAggregated
            (((fetchOracle (normalizeHost s)).toOption).getD ⟨"", "", 0, 0, 0, 0⟩)) := by
  induction servers with
  | nil => rfl
  | cons s rest ih =>
    unfold dispatchEmissions at *
    rw [List.filterMap_cons, List.filter_cons]
    cases h : fetchOracle (normalizeHost s) with
    | ok health => simp [isOkE, h, Except.toOption, ih]
    | error e => simp [isOkE, h, ih]

/-- C2 counterexample: two valid int64 records for one key whose success
counts are each 2^62 yield a wrapped total of -2^63, not the
mathematical sum 2^63. -/
theorem aggregate_sum_cex :
    (lookup2 (aggregateData
        [⟨"App", "V1", 0, 4611686018427387904⟩, ⟨"App", "V1", 0, 4611686018427387904⟩])
        "App" "V1").map AggregatedData.TotalSuccesses
      ≠ some (4611686018427387904 + 4611686018427387904) := by
  decide

/-- C2 (amended): for every key occurring in the input, the aggregated
totals equal the per-key sums of the request and success counts computed
in Go int64 arithmetic — the mathematical sums reduced into the signed
64-bit range, which coincide with the plain sums whenever those are
representable; keys not occurring in the input are absent. -/
theorem aggregate_totals (data : List AggregatedData) (a v : String) :
    ((∃ d ∈ data, d.Application = a ∧ d.Version = v) →
      lookup2 (aggregateData data) a v
        = some ⟨a, v, toInt64 (matchSum AggregatedData.TotalRequests data a v),
                      toInt64 (matchSum AggregatedData.TotalSuccesses data a v)⟩)
    ∧ ((¬ ∃ d ∈ data, d.Application = a ∧ d.Version = v) →
      lookup2 (aggregateData data) a v = none) := by
  have hchar := lookup2_aggregateData data a v
  have hany : data.any (keyMatches a v) = true
      ↔ ∃ d ∈ data, d.Application = a ∧ d.Version = v := by
    rw [List.any_eq_true]
    constructor
    · rintro ⟨x, hx, hpx⟩
      exact ⟨x, hx, (keyMatches_iff a v x).mp hpx⟩
    · rintro ⟨x, hx, hpx⟩
      exact ⟨x, hx, (keyMatches_iff a v x).mpr hpx⟩
  constructor
  · intro h
    rw [hchar, if_pos (hany.mpr h)]
  · intro h
    rw [hchar, if_neg]
    intro hc
    exact h (hany.mp hc)

/-- Witness for the amended C2 theorem at the spec's own test vector:
the two records for key (Memcache2, 1.0.1) sum to 6194800029 requests
and 4951986778 successes, and an absent key maps to nothing. -/
theorem aggregate_totals_witness :
    lookup2 (aggregateData
        [⟨"Memcache2", "1.0.1", 5194800029, 4151986778⟩,
         ⟨"Memcache2", "1.0.1", 1000000000, 800000000⟩]) "Memcache2" "1.0.1"
      = some ⟨"Memcache2", "1.0.1", 6194800029, 4951986778⟩
    ∧ lookup2 (aggregateData
        [⟨"Memcache2", "1.0.1", 5194800029, 4151986778⟩,
         ⟨"Memcache2", "1.0.1", 1000000000, 800000000⟩]) "Redis" "1.0.1" = none := by
  constructor
  · have h := (aggregate_totals
      [⟨"Memcache2", "1.0.1", 5194800029, 4151986778⟩,
       ⟨"Memcache2", "1.0.1", 1000000000, 800000000⟩] "Memcache2" "1.0.1").1
      ⟨⟨"Memcache2", "1.0.1", 5194800029, 4151986778⟩, by simp, rfl, rfl⟩
    rw [h]
    decide
  · exact (aggregate_totals
      [⟨"Memcache2", "1.0.1", 5194800029, 4151986778⟩,
       ⟨"Memcache2", "1.0.1", 1000000000, 800000000⟩] "Redis" "1.0.1").2 (by decide)

/-- C4 counterexample: two records whose request counts are each 2^62
(valid int64 values) produce a per-key total of -2^63: the accumulation
wrapped around instead of saturating at the maximum int64 value
9223372036854775807. -/
theorem aggregate_saturating_cex :
    (lookup2 (aggregateData
        [⟨"A", "1", 4611686018427387904, 0⟩, ⟨"A", "1", 4611686018427387904, 0⟩])
        "A" "1").map AggregatedData.TotalRequests = some (-9223372036854775808)
    ∧ ((-9223372036854775808 : Int) ≠ 9223372036854775807) := by
  constructor
  · decide
  · decide

/-- C4 (amended): the per-key accumulation uses two's-complement
wrapping int64 addition, not saturating addition: every stored total is
the mathematical per-key sum reduced modulo 2^64 into the signed 64-bit
range, and in particular always lies within the int64 bounds. -/
theorem aggregate_wrapping (data : List AggregatedData) (a v : String)
    (r : AggregatedData) (h : lookup2 (aggregateData data) a v = some r) :
    r.TotalRequests = toInt64 (matchSum AggregatedData.TotalRequests data a v)
    ∧ r.TotalSuccesses = toInt64 (matchSum AggregatedData.TotalSuccesses data a v)
    ∧ -9223372036854775808 ≤ r.TotalRequests ∧ r.TotalRequests < 9223372036854775808
    ∧ -9223372036854775808 ≤ r.TotalSuccesses ∧ r.TotalSuccesses < 9223372036854775808 := by
  rw [lookup2_aggregateData] at h
  by_cases hc : data.any (keyMatches a v) = true
  · rw [if_pos hc] at h
    have hr := Option.some.inj h
    subst hr
    exact ⟨rfl, rfl, (toInt64_range _).1, (toInt64_range _).2,
           (toInt64_range _).1, (toInt64_range _).2⟩
  · rw [if_neg hc] at h
    simp at h

/-- Witness for the amended C4 theorem at the wrapped-sum input: the
stored total is within int64 bounds even though the mathematical sum
overflowed. -/
theorem aggregate_wrapping_witness :
    -9223372036854775808
      ≤ (AggregatedData.mk "A" "1" (-9223372036854775808) 0).TotalRequests :=
  (aggregate_wrapping
    [⟨"A", "1", 4611686018427387904, 0⟩, ⟨"A", "1", 4611686018427387904, 0⟩]
    "A" "1" ⟨"A", "1", -9223372036854775808, 0⟩ (by decide)).2.2.1

/-- C7: aggregation is order-insensitive — permuting the input sequence
of records yields identical per-key totals in the resulting mapping. -/
theorem aggregate_perm_invariant (data data' : List AggregatedData)
    (h : data.Perm data') (a v : String) :
    lookup2 (aggregateData data) a v = lookup2 (aggregateData data') a v := by
  rw [lookup2_aggregateData, lookup2_aggregateData]
  have hany : data.any (keyMatches a v) = data'.any (keyMatches a v) := by
    rw [Bool.eq_iff_iff, List.any_eq_true, List.any_eq_true]
    constructor
    · rintro ⟨x, hx, hpx⟩
      exact ⟨x, h.mem_iff.mp hx, hpx⟩
    · rintro ⟨x, hx, hpx⟩
      exact ⟨x, h.mem_iff.mpr hx, hpx⟩
  have hreq : matchSum AggregatedData.TotalRequests data a v
      = matchSum AggregatedData.TotalRequests data' a v :=
    List.Perm.sum_eq (List.Perm.map _ (List.Perm.filter _ h))
  have hsuc : matchSum AggregatedData.TotalSuccesses data a v
      = matchSum AggregatedData.TotalSuccesses data' a v :=
    List.Perm.sum_eq (List.Perm.map _ (List.Perm.filter _ h))
  rw [hany, hreq, hsuc]

/-- Witness for the C7 theorem on a concrete transposition of two
records with distinct keys. -/
theorem aggregate_perm_invariant_witness :
    lookup2 (aggregateData [⟨"B", "2", 7, 1⟩, ⟨"A", "1", 3, 2⟩]) "A" "1"
      = lookup2 (aggregateData [⟨"A", "1", 3, 2⟩, ⟨"B", "2", 7, 1⟩]) "A" "1" :=
  aggregate_perm_invariant _ _ (List.Perm.swap _ _ _) "A" "1"

/-- C10: every entry of the aggregation satisfies the key-field
invariant — its `Application` and `Version` fields equal the keys under
which it is stored — and every application present in the outer map has
at least one version entry in its inner map. -/
theorem aggregate_key_consistency (data : List AggregatedData) (a : String) :
    ((aggregateData data a).isSome = true →
      ∃ v, (lookup2 (aggregateData data) a v).isSome = true)
    ∧ (∀ v r, lookup2 (aggregateData data) a v = some r →
        r.Application = a ∧ r.Version = v) := by
  constructor
  · intro h
    obtain ⟨inner, hinner⟩ := Option.isSome_iff_exists.mp h
    obtain ⟨v, hv⟩ := foldl_inner_nonempty data (fun _ => none)
      (fun a' i h' => Option.noConfusion h') a inner hinner
    refine ⟨v, ?_⟩
    unfold lookup2
    rw [hinner]
    exact hv
  · intro v r h
    rw [lookup2_aggregateData] at h
    by_cases hc : data.any (keyMatches a v) = true
    · rw [if_pos hc] at h
      have hr := Option.some.inj h
      rw [← hr]
      exact ⟨rfl, rfl⟩
    · rw [if_neg hc] at h
      simp at h

/-- Witness for the C10 theorem on a one-record input. -/
theorem aggregate_key_consistency_witness :
    (∃ v, (lookup2 (aggregateData [⟨"A", "1", 2, 1⟩]) "A" v).isSome = true)
    ∧ ((AggregatedData.mk "A" "1" 2 1).Application = "A"
        ∧ (AggregatedData.mk "A" "1" 2 1).Version = "1") :=
  ⟨(aggregate_key_consistency [⟨"A", "1", 2, 1⟩] "A").1 (by decide),
   (aggregate_key_consistency [⟨"A", "1", 2, 1⟩] "A").2 "1" ⟨"A", "1", 2, 1⟩ (by decide)⟩

theorem toInt64_add_both (a b : Int) : toInt64 (toInt64 a + toInt64 b) = toInt64 (a + b) := by
  unfold toInt64
  omega

theorem matchSum_append (f : AggregatedData → Int) (A B : List AggregatedData)
    (a v : String) :
    matchSum f (A ++ B) a v = matchSum f A a v + matchSum f B a v := by
  unfold matchSum
  rw [List.filter_append, List.map_append, List.sum_append]

theorem matchSum_eq_zero (f : AggregatedData → Int) (B : List AggregatedData)
    (a v : String) (h : B.any (keyMatches a v) = false) : matchSum f B a v = 0 := by
  unfold matchSum
  rw [List.filter_eq_nil_iff.mpr (fun x hx hpx => (List.any_eq_false.mp h x hx) hpx)]
  rfl

theorem lookup2_mergeAgg (m₁ m₂ : Aggregation) (a v : String) :
    lookup2 (mergeAgg m₁ m₂) a v = mergeEntry (lookup2 m₁ a v) (lookup2 m₂ a v) := by
  unfold lookup2 mergeAgg
  cases h₁ : m₁ a with
  | none =>
    cases h₂ : m₂ a with
    | none => rfl
    | some inner₂ =>
      show inner₂ v = mergeEntry none (inner₂ v)
      cases inner₂ v <;> rfl
  | some inner₁ =>
    cases h₂ : m₂ a with
    | none =>
      show inner₁ v = mergeEntry (inner₁ v) none
      cases inner₁ v <;> rfl
    | some inner₂ => rfl

/-- C8: aggregating the concatenation of two record batches equals
aggregating each batch separately and then summing the two resulting
mappings per key. -/
theorem aggregate_merge_append (A B : List AggregatedData) (a v : String) :
    lookup2 (aggregateData (A ++ B)) a v
      = lookup2 (mergeAgg (aggregateData A) (aggregateData B)) a v := by
  rw [lookup2_mergeAgg, lookup2_aggregateData, lookup2_aggregateData, lookup2_aggregateData]
  by_cases hA : A.any (keyMatches a v) = true
  · by_cases hB : B.any (keyMatches a v) = true
    · have hAB : (A ++ B).any (keyMatches a v) = true := by
        rw [List.any_append, hA, hB]
        rfl
      rw [if_pos hAB, if_pos hA, if_pos hB]
      simp only [matchSum_append, mergeEntry, mergeTotals, i64add, toInt64_add_both]
    · have hBf : B.any (keyMatches a v) = false := by
        cases hb : B.any (keyMatches a v) with
        | false => rfl
        | true => exact absurd hb hB
      have hAB : (A ++ B).any (keyMatches a v) = true := by
        rw [List.any_append, hA]
        rfl
      rw [if_pos hAB, if_pos hA, if_neg (by simp [hBf])]
      simp only [matchSum_append, matchSum_eq_zero _ _ _ _ hBf, add_zero, mergeEntry]
  · have hAf : A.any (keyMatches a v) = false := by
      cases hb : A.any (keyMatches a v) with
      | false => rfl
      | true => exact absurd hb hA
    by_cases hB : B.any (keyMatches a v) = true
    · have hAB : (A ++ B).any (keyMatches a v) = true := by
        rw [List.any_append, hAf, hB]
        rfl
      rw [if_pos hAB, if_neg (by simp [hAf]), if_pos hB]
      simp only [matchSum_append, matchSum_eq_zero _ _ _ _ hAf, zero_add, mergeEntry]
    · have hBf : B.any (keyMatches a v) = false := by
        cases hb : B.any (keyMatches a v) with
        | false => rfl
        | true => exact absurd hb hB
      have hAB : (A ++ B).any (keyMatches a v) = false := by
        rw [List.any_append, hAf, hBf]
        rfl
      rw [if_neg (by simp [hAB]), if_neg (by simp [hAf]), if_neg (by simp [hBf])]
      rfl

/-- C5: in every state reachable by the dispatcher's semaphore
discipline with capacity C ≥ 1, at most C goroutines are inside
`fetchHealthData` simultaneously — a held permit spans the pacing delay
and the fetch, and permits never exceed the semaphore capacity. -/
theorem dispatcher_concurrency_bound (C n : Nat) (s : List TaskPhase)
    (_hC : 1 ≤ C) (h : DispatchReachable C n s) : fetchingCount s ≤ C :=
  le_trans (fetchingCount_le_holders s) (holders_le_of_reachable C n s h)

/-- Witness for the C5 theorem: with capacity 1 and two hosts, the state
reached by admitting the first goroutine and starting its fetch has one
goroutine fetching, within the bound. -/
theorem dispatcher_concurrency_bound_witness :
    fetchingCount [TaskPhase.fetching, TaskPhase.pending] ≤ 1 := by
  have h1 : DispatchStep 1 [TaskPhase.pending, TaskPhase.pending]
      [TaskPhase.delaying, TaskPhase.pending] :=
    DispatchStep.acquire [TaskPhase.pending, TaskPhase.pending] 0 rfl (by decide)
  have h2 : DispatchStep 1 [TaskPhase.delaying, TaskPhase.pending]
      [TaskPhase.fetching, TaskPhase.pending] :=
    DispatchStep.startFetch [TaskPhase.delaying, TaskPhase.pending] 0 rfl
  have hreach : DispatchReachable 1 2 [TaskPhase.fetching, TaskPhase.pending] :=
    Relation.ReflTransGen.tail (Relation.ReflTransGen.tail Relation.ReflTransGen.refl h1) h2
  exact dispatcher_concurrency_bound 1 2 [TaskPhase.fetching, TaskPhase.pending]
    (le_refl 1) hreach
